import Mathlib

/-!
Verification development for the `store` front-end (`src/script.js`).

The script keeps a shopping cart (an array of line-item objects) in memory,
persists it to `localStorage` under the key `'cart'` via `JSON.stringify` /
`JSON.parse`, recomputes totals on the cart page, and filters the records
fetched from a product API.

Modelling conventions:
* JavaScript numbers that occur in carts are finite decimals
  (`getRandomPrice` produces two-decimal strings, `parseFloat` turns them
  into numbers, quantities are integers).  We model such a number as a pair
  mantissa/decimal-exponent (`JNum`), with its rational value used for
  arithmetic.  Binary floating-point artefacts are outside the model.
* JavaScript strings are modelled as Lean `String`s.
* `localStorage` holds an optional string; `JSON.stringify` and `JSON.parse`
  are modelled by an executable printer (`jsonChars`) and recursive-descent
  grammar reader (`parseValue`) over a `Json` value type.  `JSON.parse`
  throwing a `SyntaxError` is modelled as the reader returning `none`.
-/

namespace Store

/-! ### Decimal numbers (model of the JS numbers occurring in carts) -/

/-- A finite decimal `m / 10 ^ e`, the model of a JavaScript number as it
occurs in cart data. -/
structure JNum where
  m : Int
  e : Nat
deriving DecidableEq, Repr

/-- Rational value of a decimal. -/
def JNum.toRat (d : JNum) : ℚ := (d.m : ℚ) / ((10 : ℚ) ^ d.e)

/-! ### Digits and numerals -/

/-- The character for a single decimal digit. -/
def digitChar : Nat → Char
  | 0 => '0' | 1 => '1' | 2 => '2' | 3 => '3' | 4 => '4'
  | 5 => '5' | 6 => '6' | 7 => '7' | 8 => '8' | 9 => '9'
  | _ => '*'

/-- Numeric value of a decimal digit character. -/
def charDigitVal (c : Char) : Nat := c.toNat - 48

/-- Decimal digit test (the JSON grammar's DIGIT class). -/
def isDigitChar (c : Char) : Bool := 48 ≤ c.toNat && c.toNat ≤ 57

/-- Digit values of `n`, most significant first (`[]` for `0`). -/
def natDigits (n : Nat) : List Nat := (Nat.digits 10 n).reverse

/-- Digit values of `n`, most significant first, printing `0` as `[0]`. -/
def natD (n : Nat) : List Nat := if n = 0 then [0] else natDigits n

/-- Decimal numeral for `n`. -/
def natChars (n : Nat) : List Char := (natD n).map digitChar

/-- Digit values of `k` left-padded with zeros to width `w`. -/
def padD (w k : Nat) : List Nat :=
  List.replicate (w - (Nat.digits 10 k).length) 0 ++ natDigits k

/-- Zero-padded numeral of width `w` for `k`. -/
def padChars (w k : Nat) : List Char := (padD w k).map digitChar

/-- The characters `JSON.stringify` produces for a decimal number. -/
def JNum.toChars (d : JNum) : List Char :=
  let a := d.m.natAbs
  let sign : List Char := if d.m < 0 then ['-'] else []
  if d.e = 0 then sign ++ natChars a
  else sign ++ natChars (a / 10 ^ d.e) ++ '.' :: padChars d.e (a % 10 ^ d.e)

theorem charDigitVal_digitChar : ∀ d, d < 10 → charDigitVal (digitChar d) = d := by decide

theorem isDigit_digitChar : ∀ d, d < 10 → isDigitChar (digitChar d) = true := by decide

theorem natDigits_lt (n : Nat) : ∀ d ∈ natDigits n, d < 10 := by
  intro d hd
  exact Nat.digits_lt_base (by norm_num) (List.mem_reverse.mp hd)

theorem natD_lt (n : Nat) : ∀ d ∈ natD n, d < 10 := by
  intro d hd
  unfold natD at hd
  split at hd
  · simp only [List.mem_singleton] at hd; omega
  · exact natDigits_lt n d hd

theorem natD_ne_nil (n : Nat) : natD n ≠ [] := by
  unfold natD
  split
  · simp
  · simp only [natDigits, ne_eq, List.reverse_eq_nil_iff]
    exact Nat.digits_ne_nil_iff_ne_zero.mpr (by assumption)

theorem padD_lt (w k : Nat) : ∀ d ∈ padD w k, d < 10 := by
  intro d hd
  unfold padD at hd
  rcases List.mem_append.mp hd with h | h
  · have := List.eq_of_mem_replicate h; omega
  · exact natDigits_lt k d h

theorem padD_length (w k : Nat) (hk : k < 10 ^ w) : (padD w k).length = w := by
  unfold padD natDigits
  have hlen : (Nat.digits 10 k).length ≤ w := by
    rcases Nat.eq_zero_or_pos k with rfl | hkpos
    · simp
    · have hlog : Nat.log 10 k < w :=
        (Nat.lt_pow_iff_log_lt (by norm_num) (by omega)).mp hk
      rw [Nat.digits_len 10 k (by norm_num) (by omega)]
      omega
  simp only [List.length_append, List.length_replicate, List.length_reverse]
  omega

/-- Value of a most-significant-first digit list. -/
def digitsVal (ds : List Nat) : Nat := ds.foldl (fun a d => a * 10 + d) 0

theorem foldl_digits_general (l : List Nat) :
    ∀ a : Nat, l.reverse.foldl (fun x d => x * 10 + d) a =
      a * 10 ^ l.length + Nat.ofDigits 10 l := by
  induction l with
  | nil => intro a; simp
  | cons d l ih =>
    intro a
    simp only [List.reverse_cons, List.foldl_append, List.foldl_cons, List.foldl_nil, ih,
      Nat.ofDigits_cons, List.length_cons]
    ring

theorem digitsVal_natDigits (n : Nat) : digitsVal (natDigits n) = n := by
  unfold digitsVal natDigits
  rw [foldl_digits_general]
  simp [Nat.ofDigits_digits]

theorem digitsVal_natD (n : Nat) : digitsVal (natD n) = n := by
  unfold natD
  split
  · simp [digitsVal]; omega
  · exact digitsVal_natDigits n

theorem foldl_val_replicate_zero (z : Nat) :
    (List.replicate z 0).foldl (fun a d => a * 10 + d) 0 = 0 := by
  induction z with
  | zero => rfl
  | succ z ih => simpa [List.replicate_succ] using ih

theorem digitsVal_padD (w k : Nat) : digitsVal (padD w k) = k := by
  unfold digitsVal padD
  rw [List.foldl_append, foldl_val_replicate_zero]
  simpa [digitsVal, natDigits] using digitsVal_natDigits k

theorem padD_ne_nil (w k : Nat) (hw : 0 < w) (hk : k < 10 ^ w) : padD w k ≠ [] := by
  intro h
  have := padD_length w k hk
  rw [h] at this
  simp at this
  omega

/-- Leading-zero test on a digit list: JSON rejects numerals such as `013`. -/
def leadingZeroBad : List Nat → Bool
  | 0 :: _ :: _ => true
  | _ => false

theorem leadingZeroBad_cons (d : Nat) (ds : List Nat) (hd : d ≠ 0) :
    leadingZeroBad (d :: ds) = false := by
  cases d with
  | zero => exact absurd rfl hd
  | succ k => cases ds <;> rfl

theorem leadingZeroBad_natD (n : Nat) : leadingZeroBad (natD n) = false := by
  rcases Nat.eq_zero_or_pos n with rfl | hpos
  · rfl
  · have hn : n ≠ 0 := by omega
    have hne : Nat.digits 10 n ≠ [] := Nat.digits_ne_nil_iff_ne_zero.mpr hn
    have hlast : (Nat.digits 10 n).getLast hne ≠ 0 := Nat.getLast_digit_ne_zero 10 hn
    have hnatD : natD n = natDigits n := by unfold natD; simp [hn]
    rw [hnatD]
    rcases hrev : natDigits n with _ | ⟨d, ds⟩
    · rfl
    · refine leadingZeroBad_cons d ds ?_
      have hd : (natDigits n).head? = some d := by rw [hrev]; rfl
      unfold natDigits at hd
      rw [List.head?_reverse, List.getLast?_eq_getLast _ hne] at hd
      intro hc
      exact hlast (by rw [Option.some.inj hd, hc])

/-! ### JSON values and `JSON.stringify` -/

/-- JSON value tree (the values `JSON.parse` can produce). -/
inductive Json where
  | null
  | bool (b : Bool)
  | num (d : JNum)
  | str (value : String)
  | arr (items : List Json)
  | obj (fields : List (String × Json))

/-- Lower-case hexadecimal digit character. -/
def hexDigitChar : Nat → Char
  | 0 => '0' | 1 => '1' | 2 => '2' | 3 => '3' | 4 => '4' | 5 => '5' | 6 => '6' | 7 => '7'
  | 8 => '8' | 9 => '9' | 10 => 'a' | 11 => 'b' | 12 => 'c' | 13 => 'd' | 14 => 'e' | 15 => 'f'
  | _ => '*'

/-- How `JSON.stringify` escapes one character inside a string literal. -/
def escapeChar (c : Char) : List Char :=
  if c = '"' then ['\\', '"']
  else if c = '\\' then ['\\', '\\']
  else if c.toNat = 8 then ['\\', 'b']
  else if c.toNat = 9 then ['\\', 't']
  else if c.toNat = 10 then ['\\', 'n']
  else if c.toNat = 12 then ['\\', 'f']
  else if c.toNat = 13 then ['\\', 'r']
  else if c.toNat < 32 then
    '\\' :: 'u' :: '0' :: '0' :: hexDigitChar (c.toNat / 16) :: [hexDigitChar (c.toNat % 16)]
  else [c]

/-- The characters of a JSON string literal for `s` (quotes included). -/
def strChars (s : String) : List Char := '"' :: (s.data.map escapeChar).flatten ++ ['"']

mutual

/-- The characters `JSON.stringify` produces (no added whitespace). -/
def jsonChars : Json → List Char
  | .null => 'n' :: ['u', 'l', 'l']
  | .bool true => 't' :: ['r', 'u', 'e']
  | .bool false => 'f' :: ['a', 'l', 's', 'e']
  | .num d => d.toChars
  | .str s => strChars s
  | .arr [] => ['[', ']']
  | .arr (x :: xs) => '[' :: (jsonChars x ++ elemsTail xs ++ [']'])
  | .obj [] => ['\x7b', '\x7d']
  | .obj (kv :: kvs) =>
      '\x7b' :: (strChars kv.1 ++ ':' :: jsonChars kv.2 ++ membersTail kvs ++ ['\x7d'])

/-- Serialization of the array elements after the first, each preceded by `,`. -/
def elemsTail : List Json → List Char
  | [] => []
  | x :: xs => ',' :: (jsonChars x ++ elemsTail xs)

/-- Serialization of the object members after the first, each preceded by `,`. -/
def membersTail : List (String × Json) → List Char
  | [] => []
  | kv :: kvs => ',' :: (strChars kv.1 ++ ':' :: jsonChars kv.2 ++ membersTail kvs)

end

/-! ### `JSON.parse`, as an executable grammar reader -/

/-- JSON insignificant whitespace. -/
def isWs (c : Char) : Bool := c = ' ' || c = '\t' || c = '\n' || c = '\r'

/-- Drop leading whitespace. -/
def skipWs : List Char → List Char
  | [] => []
  | c :: rest => if isWs c then skipWs rest else c :: rest

/-- Numeric value of a hexadecimal digit character, if any. -/
def hexVal (c : Char) : Option Nat :=
  if isDigitChar c then some (c.toNat - 48)
  else if 97 ≤ c.toNat ∧ c.toNat ≤ 102 then some (c.toNat - 87)
  else if 65 ≤ c.toNat ∧ c.toNat ≤ 70 then some (c.toNat - 55)
  else none

/-- Prefix a decoded character onto a string-body parse result. -/
def consStr (c : Char) : Option (List Char × List Char) → Option (List Char × List Char)
  | some (cs, rest) => some (c :: cs, rest)
  | none => none

/-- Read the body of a JSON string literal (after the opening quote),
returning the decoded characters and the input after the closing quote. -/
def parseStringBody : List Char → Option (List Char × List Char)
  | [] => none
  | c :: rest =>
    if c = '"' then some ([], rest)
    else if c = '\\' then
      match rest with
      | [] => none
      | e :: r =>
        if e = '"' then consStr '"' (parseStringBody r)
        else if e = '\\' then consStr '\\' (parseStringBody r)
        else if e = '/' then consStr '/' (parseStringBody r)
        else if e = 'b' then consStr (Char.ofNat 8) (parseStringBody r)
        else if e = 'f' then consStr (Char.ofNat 12) (parseStringBody r)
        else if e = 'n' then consStr (Char.ofNat 10) (parseStringBody r)
        else if e = 'r' then consStr (Char.ofNat 13) (parseStringBody r)
        else if e = 't' then consStr (Char.ofNat 9) (parseStringBody r)
        else if e = 'u' then
          match r with
          | h1 :: h2 :: h3 :: h4 :: r2 =>
            match hexVal h1, hexVal h2, hexVal h3, hexVal h4 with
            | some a, some b, some c2, some d =>
              consStr (Char.ofNat (((a * 16 + b) * 16 + c2) * 16 + d)) (parseStringBody r2)
            | _, _, _, _ => none
          | _ => none
        else none
    else if c.toNat < 32 then none
    else consStr c (parseStringBody rest)

/-- Read a maximal run of decimal digits. -/
def readDigits : List Char → List Nat × List Char
  | [] => ([], [])
  | c :: rest =>
    if isDigitChar c then
      let p := readDigits rest
      (charDigitVal c :: p.1, p.2)
    else ([], c :: rest)

/-- Read an unsigned JSON number (integer part, optional fraction). -/
def parseNumAux (input : List Char) : Option (JNum × List Char) :=
  let p := readDigits input
  if p.1 = [] then none
  else if leadingZeroBad p.1 then none
  else
    match p.2 with
    | [] => some (⟨(digitsVal p.1 : Int), 0⟩, [])
    | c :: r2 =>
      if c = '.' then
        let q := readDigits r2
        if q.1 = [] then none
        else some (⟨(digitsVal p.1 : Int) * (10 : Int) ^ q.1.length + (digitsVal q.1 : Int),
                    q.1.length⟩, q.2)
      else some (⟨(digitsVal p.1 : Int), 0⟩, c :: r2)

/-- Read a JSON number with optional leading minus sign. -/
def parseNumber (input : List Char) : Option (JNum × List Char) :=
  match input with
  | [] => none
  | c :: r =>
    if c = '-' then
      match parseNumAux r with
      | some (d, rest) => some (⟨-d.m, d.e⟩, rest)
      | none => none
    else parseNumAux (c :: r)

mutual

/-- Read one JSON value (leading whitespace allowed); `fuel` bounds the
recursion depth and is chosen large enough by `jsonParse`. -/
def parseValue : Nat → List Char → Option (Json × List Char)
  | 0, _ => none
  | f + 1, input =>
    match skipWs input with
    | [] => none
    | c :: rest =>
      if c = 'n' then
        match rest with
        | 'u' :: 'l' :: 'l' :: r => some (.null, r)
        | _ => none
      else if c = 't' then
        match rest with
        | 'r' :: 'u' :: 'e' :: r => some (.bool true, r)
        | _ => none
      else if c = 'f' then
        match rest with
        | 'a' :: 'l' :: 's' :: 'e' :: r => some (.bool false, r)
        | _ => none
      else if c = '"' then
        match parseStringBody rest with
        | some (cs, r) => some (.str ⟨cs⟩, r)
        | none => none
      else if c = '[' then
        match skipWs rest with
        | [] => none
        | c2 :: r2 =>
          if c2 = ']' then some (.arr [], r2)
          else
            match parseValue f (c2 :: r2) with
            | some (v, r3) =>
              match parseArrTail f r3 with
              | some (vs, r4) => some (.arr (v :: vs), r4)
              | none => none
            | none => none
      else if c = '\x7b' then
        match skipWs rest with
        | [] => none
        | c2 :: r2 =>
          if c2 = '\x7d' then some (.obj [], r2)
          else
            match parseMember f (c2 :: r2) with
            | some (kv, r3) =>
              match parseObjTail f r3 with
              | some (kvs, r4) => some (.obj (kv :: kvs), r4)
              | none => none
            | none => none
      else
        match parseNumber (c :: rest) with
        | some (d, r) => some (.num d, r)
        | none => none

/-- After one array element: `]` closes the array, `,` precedes another element. -/
def parseArrTail : Nat → List Char → Option (List Json × List Char)
  | 0, _ => none
  | f + 1, input =>
    match skipWs input with
    | [] => none
    | c :: rest =>
      if c = ']' then some ([], rest)
      else if c = ',' then
        match parseValue f rest with
        | some (v, r1) =>
          match parseArrTail f r1 with
          | some (vs, r2) => some (v :: vs, r2)
          | none => none
        | none => none
      else none

/-- Read one `"key": value` object member. -/
def parseMember : Nat → List Char → Option ((String × Json) × List Char)
  | 0, _ => none
  | f + 1, input =>
    match skipWs input with
    | [] => none
    | c :: rest =>
      if c = '"' then
        match parseStringBody rest with
        | some (k, r1) =>
          match skipWs r1 with
          | [] => none
          | c2 :: r2 =>
            if c2 = ':' then
              match parseValue f r2 with
              | some (v, r3) => some ((⟨k⟩, v), r3)
              | none => none
            else none
        | none => none
      else none

/-- After one object member: `}` closes the object, `,` precedes another member. -/
def parseObjTail : Nat → List Char → Option (List (String × Json) × List Char)
  | 0, _ => none
  | f + 1, input =>
    match skipWs input with
    | [] => none
    | c :: rest =>
      if c = '\x7d' then some ([], rest)
      else if c = ',' then
        match parseMember f rest with
        | some (kv, r1) =>
          match parseObjTail f r1 with
          | some (kvs, r2) => some (kv :: kvs, r2)
          | none => none
        | none => none
      else none

end

/-- Model of `JSON.parse`: read one value, allow trailing whitespace only;
`none` models the `SyntaxError` the library throws on malformed input. -/
def jsonParse (s : String) : Option Json :=
  match parseValue (s.data.length + 1) s.data with
  | some (j, r) => if skipWs r = [] then some j else none
  | none => none

/-! ### Round trip: the reader recovers what the printer wrote -/

theorem skipWs_cons_not (c : Char) (l : List Char) (h : isWs c = false) :
    skipWs (c :: l) = c :: l := by
  simp [skipWs, h]

theorem hexVal_hexDigitChar : ∀ n, n < 16 → hexVal (hexDigitChar n) = some n := by decide

theorem parseStringBody_quote (rest : List Char) :
    parseStringBody ('"' :: rest) = some ([], rest) := by
  unfold parseStringBody; rfl

theorem parseStringBody_escq (r : List Char) :
    parseStringBody ('\\' :: '"' :: r) = consStr '"' (parseStringBody r) := by
  rw [parseStringBody.eq_def]; rfl

theorem parseStringBody_escb (r : List Char) :
    parseStringBody ('\\' :: '\\' :: r) = consStr '\\' (parseStringBody r) := by
  rw [parseStringBody.eq_def]; rfl

theorem parseStringBody_esc8 (r : List Char) :
    parseStringBody ('\\' :: 'b' :: r) = consStr (Char.ofNat 8) (parseStringBody r) := by
  rw [parseStringBody.eq_def]; rfl

theorem parseStringBody_esc9 (r : List Char) :
    parseStringBody ('\\' :: 't' :: r) = consStr (Char.ofNat 9) (parseStringBody r) := by
  rw [parseStringBody.eq_def]; rfl

theorem parseStringBody_esc10 (r : List Char) :
    parseStringBody ('\\' :: 'n' :: r) = consStr (Char.ofNat 10) (parseStringBody r) := by
  rw [parseStringBody.eq_def]; rfl

theorem parseStringBody_esc12 (r : List Char) :
    parseStringBody ('\\' :: 'f' :: r) = consStr (Char.ofNat 12) (parseStringBody r) := by
  rw [parseStringBody.eq_def]; rfl

theorem parseStringBody_esc13 (r : List Char) :
    parseStringBody ('\\' :: 'r' :: r) = consStr (Char.ofNat 13) (parseStringBody r) := by
  rw [parseStringBody.eq_def]; rfl

theorem parseStringBody_escu (a b c2 d : Char) (va vb vc vd : Nat) (r2 : List Char)
    (ha : hexVal a = some va) (hb : hexVal b = some vb) (hc : hexVal c2 = some vc)
    (hd : hexVal d = some vd) :
    parseStringBody ('\\' :: 'u' :: a :: b :: c2 :: d :: r2)
      = consStr (Char.ofNat (((va * 16 + vb) * 16 + vc) * 16 + vd)) (parseStringBody r2) := by
  rw [parseStringBody.eq_def]
  simp [ha, hb, hc, hd]

theorem parseStringBody_lit (c : Char) (rest : List Char) (h1 : ¬c = '"') (h2 : ¬c = '\\')
    (h8 : ¬c.toNat < 32) :
    parseStringBody (c :: rest) = consStr c (parseStringBody rest) := by
  rw [parseStringBody.eq_def]
  simp [h1, h2, h8]

theorem escapeChar_ctrl (c : Char) (h1 : ¬c = '"') (h2 : ¬c = '\\')
    (hn : c.toNat ≠ 8 ∧ c.toNat ≠ 9 ∧ c.toNat ≠ 10 ∧ c.toNat ≠ 12 ∧ c.toNat ≠ 13)
    (h8 : c.toNat < 32) :
    escapeChar c
      = '\\' :: 'u' :: '0' :: '0' :: hexDigitChar (c.toNat / 16)
          :: [hexDigitChar (c.toNat % 16)] := by
  unfold escapeChar
  rw [if_neg h1, if_neg h2, if_neg hn.1, if_neg hn.2.1, if_neg hn.2.2.1, if_neg hn.2.2.2.1,
    if_neg hn.2.2.2.2, if_pos h8]

theorem escapeChar_lit (c : Char) (h1 : ¬c = '"') (h2 : ¬c = '\\') (h8 : ¬c.toNat < 32) :
    escapeChar c = [c] := by
  have e8 : c.toNat ≠ 8 := by omega
  have e9 : c.toNat ≠ 9 := by omega
  have e10 : c.toNat ≠ 10 := by omega
  have e12 : c.toNat ≠ 12 := by omega
  have e13 : c.toNat ≠ 13 := by omega
  unfold escapeChar
  rw [if_neg h1, if_neg h2, if_neg e8, if_neg e9, if_neg e10, if_neg e12, if_neg e13, if_neg h8]

theorem parseStringBody_escaped (s : List Char) (rest : List Char) :
    parseStringBody ((s.map escapeChar).flatten ++ '"' :: rest) = some (s, rest) := by
  induction s with
  | nil => simpa using parseStringBody_quote rest
  | cons c s ih =>
    have step : ((c :: s).map escapeChar).flatten ++ '"' :: rest
        = escapeChar c ++ ((s.map escapeChar).flatten ++ '"' :: rest) := by
      simp
    rw [step]
    by_cases h1 : c = '"'
    · subst h1
      rw [show escapeChar '"' = ['\\', '"'] from rfl]
      simp only [List.cons_append, List.nil_append, parseStringBody_escq, ih, consStr]
    · by_cases h2 : c = '\\'
      · subst h2
        rw [show escapeChar '\\' = ['\\', '\\'] from rfl]
        simp only [List.cons_append, List.nil_append, parseStringBody_escb, ih, consStr]
      · by_cases h3 : c.toNat = 8
        · have hesc : escapeChar c = ['\\', 'b'] := by
            unfold escapeChar; rw [if_neg h1, if_neg h2, if_pos h3]
          have hc : Char.ofNat 8 = c := by rw [← h3, Char.ofNat_toNat]
          rw [hesc]
          simp only [List.cons_append, List.nil_append, parseStringBody_esc8, ih, consStr, hc]
        · by_cases h4 : c.toNat = 9
          · have hesc : escapeChar c = ['\\', 't'] := by
              unfold escapeChar; rw [if_neg h1, if_neg h2, if_neg h3, if_pos h4]
            have hc : Char.ofNat 9 = c := by rw [← h4, Char.ofNat_toNat]
            rw [hesc]
            simp only [List.cons_append, List.nil_append, parseStringBody_esc9, ih, consStr, hc]
          · by_cases h5 : c.toNat = 10
            · have hesc : escapeChar c = ['\\', 'n'] := by
                unfold escapeChar; rw [if_neg h1, if_neg h2, if_neg h3, if_neg h4, if_pos h5]
              have hc : Char.ofNat 10 = c := by rw [← h5, Char.ofNat_toNat]
              rw [hesc]
              simp only [List.cons_append, List.nil_append, parseStringBody_esc10, ih, consStr, hc]
            · by_cases h6 : c.toNat = 12
              · have hesc : escapeChar c = ['\\', 'f'] := by
                  unfold escapeChar
                  rw [if_neg h1, if_neg h2, if_neg h3, if_neg h4, if_neg h5, if_pos h6]
                have hc : Char.ofNat 12 = c := by rw [← h6, Char.ofNat_toNat]
                rw [hesc]
                simp only [List.cons_append, List.nil_append, parseStringBody_esc12, ih, consStr,
                  hc]
              · by_cases h7 : c.toNat = 13
                · have hesc : escapeChar c = ['\\', 'r'] := by
                    unfold escapeChar
                    rw [if_neg h1, if_neg h2, if_neg h3, if_neg h4, if_neg h5, if_neg h6,
                      if_pos h7]
                  have hc : Char.ofNat 13 = c := by rw [← h7, Char.ofNat_toNat]
                  rw [hesc]
                  simp only [List.cons_append, List.nil_append, parseStringBody_esc13, ih, consStr,
                    hc]
                · by_cases h8 : c.toNat < 32
                  · rw [escapeChar_ctrl c h1 h2 ⟨h3, h4, h5, h6, h7⟩ h8]
                    have hdiv : c.toNat / 16 < 16 := by omega
                    have hmod : c.toNat % 16 < 16 := by omega
                    simp only [List.cons_append, List.nil_append]
                    rw [parseStringBody_escu '0' '0' _ _ 0 0 (c.toNat / 16) (c.toNat % 16) _
                      (by decide) (by decide) (hexVal_hexDigitChar _ hdiv)
                      (hexVal_hexDigitChar _ hmod)]
                    have harith : ((0 * 16 + 0) * 16 + c.toNat / 16) * 16 + c.toNat % 16
                        = c.toNat := by omega
                    rw [harith, Char.ofNat_toNat, ih]
                    rfl
                  · rw [escapeChar_lit c h1 h2 h8]
                    simp only [List.cons_append, List.nil_append,
                      parseStringBody_lit c _ h1 h2 h8, ih, consStr]

theorem readDigits_exact (ds : List Nat) (h : ∀ d ∈ ds, d < 10) (rest : List Char)
    (hrest : ∀ c, rest.head? = some c → isDigitChar c = false) :
    readDigits (ds.map digitChar ++ rest) = (ds, rest) := by
  induction ds with
  | nil =>
    cases rest with
    | nil => rfl
    | cons c r => simp [readDigits, hrest c rfl]
  | cons d ds ih =>
    have hd : d < 10 := h d (by simp)
    simp [readDigits, isDigit_digitChar d hd, charDigitVal_digitChar d hd,
      ih (fun x hx => h x (by simp [hx]))]

theorem parseNumAux_natChars (n : Nat) (rest : List Char)
    (hrest : ∀ c, rest.head? = some c → isDigitChar c = false ∧ c ≠ '.') :
    parseNumAux (natChars n ++ rest) = some (⟨(n : Int), 0⟩, rest) := by
  unfold parseNumAux natChars
  rw [readDigits_exact (natD n) (natD_lt n) rest (fun c hc => (hrest c hc).1)]
  simp only [if_neg (natD_ne_nil n), leadingZeroBad_natD n, Bool.false_eq_true, if_false]
  cases rest with
  | nil => simp [digitsVal_natD]
  | cons c r =>
    have hcne : c ≠ '.' := (hrest c rfl).2
    simp [hcne, digitsVal_natD]

theorem parseNumAux_frac (n e k : Nat) (he : 0 < e) (hk : k < 10 ^ e) (rest : List Char)
    (hrest : ∀ c, rest.head? = some c → isDigitChar c = false ∧ c ≠ '.') :
    parseNumAux (natChars n ++ '.' :: padChars e k ++ rest)
      = some (⟨(n : Int) * (10 : Int) ^ e + (k : Int), e⟩, rest) := by
  have h1 := readDigits_exact (natD n) (natD_lt n) ('.' :: (padChars e k ++ rest)) (by
    intro c hc
    rw [List.head?_cons] at hc
    injection hc with h
    subst h
    decide)
  have h2 := readDigits_exact (padD e k) (padD_lt e k) rest (fun c hc => (hrest c hc).1)
  have hpadne : padD e k ≠ [] := padD_ne_nil e k he hk
  unfold parseNumAux natChars padChars
  unfold padChars at h1
  simp [h1, h2, natD_ne_nil n, leadingZeroBad_natD n, hpadne, digitsVal_natD, digitsVal_padD,
    padD_length e k hk]

theorem isDigitChar_toNat (c : Char) (h : isDigitChar c = true) :
    48 ≤ c.toNat ∧ c.toNat ≤ 57 := by
  simpa [isDigitChar, Bool.and_eq_true, decide_eq_true_eq] using h

theorem isDigitChar_ne (c : Char) (h : isDigitChar c = true) (q : Char)
    (hq : q.toNat < 48 ∨ 57 < q.toNat) : c ≠ q := by
  obtain ⟨h1, h2⟩ := isDigitChar_toNat c h
  intro e
  subst e
  omega

theorem isWs_digit_false (c : Char) (h : isDigitChar c = true) : isWs c = false := by
  have h1 := isDigitChar_ne c h ' ' (by decide)
  have h2 := isDigitChar_ne c h '\t' (by decide)
  have h3 := isDigitChar_ne c h '\n' (by decide)
  have h4 := isDigitChar_ne c h '\r' (by decide)
  simp [isWs, h1, h2, h3, h4]

/-- The only characters the printer can put directly after a serialized value:
a separator, a closing bracket, or nothing. -/
def GoodRest (rest : List Char) : Prop :=
  ∀ c, rest.head? = some c → c = ',' ∨ c = ']' ∨ c = '\x7d'

theorem goodRest_nil : GoodRest [] := by intro c hc; cases hc

theorem goodRest_numStop (rest : List Char) (h : GoodRest rest) :
    ∀ c, rest.head? = some c → isDigitChar c = false ∧ c ≠ '.' := by
  intro c hc
  rcases h c hc with rfl | rfl | rfl <;> exact ⟨by decide, by decide⟩

theorem natChars_cons (n : Nat) :
    ∃ c cs, natChars n = c :: cs ∧ isDigitChar c = true := by
  unfold natChars
  rcases h : natD n with _ | ⟨d, ds⟩
  · exact absurd h (natD_ne_nil n)
  · exact ⟨digitChar d, ds.map digitChar, by simp,
      isDigit_digitChar d (natD_lt n d (by simp [h]))⟩

theorem toChars_cons (d : JNum) :
    ∃ c cs, d.toChars = c :: cs ∧ (c = '-' ∨ isDigitChar c = true) := by
  obtain ⟨m, e⟩ := d
  unfold JNum.toChars
  by_cases hm : m < 0
  · by_cases he : e = 0 <;>
      simp only [hm, if_true, if_pos, he, if_neg, reduceIte] <;>
      exact ⟨'-', _, rfl, Or.inl rfl⟩
  · by_cases he : e = 0
    · obtain ⟨c, cs, hc, hdig⟩ := natChars_cons m.natAbs
      simp only [reduceIte, hm, he, if_true, if_false]
      exact ⟨c, cs, by simp [hc], Or.inr hdig⟩
    · obtain ⟨c, cs, hc, hdig⟩ := natChars_cons (m.natAbs / 10 ^ e)
      simp only [reduceIte, hm, he, if_false]
      exact ⟨c, cs ++ '.' :: padChars e (m.natAbs % 10 ^ e), by simp [hc], Or.inr hdig⟩

theorem parseNumber_neg_of (r : List Char) (d : JNum) (rest : List Char)
    (h : parseNumAux r = some (d, rest)) :
    parseNumber ('-' :: r) = some (⟨-d.m, d.e⟩, rest) := by
  rw [parseNumber.eq_def]
  simp [h]

theorem parseNumber_notneg (c : Char) (r : List Char) (h : ¬c = '-') :
    parseNumber (c :: r) = parseNumAux (c :: r) := by
  rw [parseNumber.eq_def]
  simp [h]

theorem parseNumber_toChars (d : JNum) (rest : List Char)
    (hrest : ∀ c, rest.head? = some c → isDigitChar c = false ∧ c ≠ '.') :
    parseNumber (d.toChars ++ rest) = some (d, rest) := by
  obtain ⟨m, e⟩ := d
  have hmod : m.natAbs % 10 ^ e < 10 ^ e := Nat.mod_lt _ (by positivity)
  by_cases he : e = 0
  · subst he
    by_cases hm : m < 0
    · have hchars : JNum.toChars ⟨m, 0⟩ = '-' :: natChars m.natAbs := by
        unfold JNum.toChars
        simp [hm]
      rw [hchars, List.cons_append,
        parseNumber_neg_of _ _ _ (parseNumAux_natChars m.natAbs rest hrest)]
      have : -((m.natAbs : Nat) : Int) = m := by omega
      rw [this]
    · have hchars : JNum.toChars ⟨m, 0⟩ = natChars m.natAbs := by
        unfold JNum.toChars
        simp [hm]
      obtain ⟨c, cs, hc, hdig⟩ := natChars_cons m.natAbs
      rw [hchars, hc, List.cons_append,
        parseNumber_notneg c _ (isDigitChar_ne c hdig '-' (by decide)), ← List.cons_append, ← hc,
        parseNumAux_natChars m.natAbs rest hrest]
      have : ((m.natAbs : Nat) : Int) = m := by omega
      rw [this]
  · have he' : 0 < e := Nat.pos_of_ne_zero he
    have hval : ((m.natAbs / 10 ^ e : Nat) : Int) * (10 : Int) ^ e
        + ((m.natAbs % 10 ^ e : Nat) : Int) = (m.natAbs : Int) := by
      have hNat : m.natAbs / 10 ^ e * 10 ^ e + m.natAbs % 10 ^ e = m.natAbs :=
        Nat.div_add_mod' _ _
      exact_mod_cast hNat
    have hfrac := parseNumAux_frac (m.natAbs / 10 ^ e) e (m.natAbs % 10 ^ e) he' hmod rest hrest
    simp only [List.append_assoc, List.cons_append] at hfrac
    by_cases hm : m < 0
    · have hchars : JNum.toChars ⟨m, e⟩
          = '-' :: (natChars (m.natAbs / 10 ^ e) ++ '.' :: padChars e (m.natAbs % 10 ^ e)) := by
        unfold JNum.toChars
        simp [hm, he]
      rw [hchars]
      simp only [List.append_assoc, List.cons_append]
      rw [parseNumber_neg_of _ _ _ hfrac]
      have : -((m.natAbs / 10 ^ e : Nat) * (10 : Int) ^ e + (m.natAbs % 10 ^ e : Nat)) = m := by
        rw [hval]; omega
      rw [this]
    · have hchars : JNum.toChars ⟨m, e⟩
          = natChars (m.natAbs / 10 ^ e) ++ '.' :: padChars e (m.natAbs % 10 ^ e) := by
        unfold JNum.toChars
        simp [hm, he]
      obtain ⟨c, cs, hc, hdig⟩ := natChars_cons (m.natAbs / 10 ^ e)
      rw [hchars]
      simp only [List.append_assoc, List.cons_append]
      rw [hc, List.cons_append, parseNumber_notneg c _ (isDigitChar_ne c hdig '-' (by decide)),
        ← List.cons_append, ← hc, hfrac]
      have : ((m.natAbs / 10 ^ e : Nat) * (10 : Int) ^ e + (m.natAbs % 10 ^ e : Nat) : Int)
          = m := by
        rw [hval]; omega
      rw [this]

theorem goodRest_cons_comma (l : List Char) : GoodRest (',' :: l) := by
  intro c hc
  rw [List.head?_cons] at hc
  exact Or.inl (Option.some.inj hc).symm

theorem goodRest_cons_rbracket (l : List Char) : GoodRest (']' :: l) := by
  intro c hc
  rw [List.head?_cons] at hc
  exact Or.inr (Or.inl (Option.some.inj hc).symm)

theorem goodRest_cons_rbrace (l : List Char) : GoodRest ('\x7d' :: l) := by
  intro c hc
  rw [List.head?_cons] at hc
  exact Or.inr (Or.inr (Option.some.inj hc).symm)

theorem goodRest_elemsTail (xs : List Json) (rest : List Char) :
    GoodRest (elemsTail xs ++ (']' :: rest)) := by
  cases xs with
  | nil => simpa [elemsTail] using goodRest_cons_rbracket rest
  | cons y ys => simpa [elemsTail] using goodRest_cons_comma _

theorem goodRest_membersTail (kvs : List (String × Json)) (rest : List Char) :
    GoodRest (membersTail kvs ++ ('\x7d' :: rest)) := by
  cases kvs with
  | nil => simpa [membersTail] using goodRest_cons_rbrace rest
  | cons kv kvs => simpa [membersTail] using goodRest_cons_comma _

theorem jsonChars_head (j : Json) :
    ∃ c cs, jsonChars j = c :: cs ∧ isWs c = false ∧ c ≠ ']' := by
  cases j with
  | null => exact ⟨'n', ['u', 'l', 'l'], by simp [jsonChars], by decide, by decide⟩
  | bool b =>
    cases b with
    | true => exact ⟨'t', ['r', 'u', 'e'], by simp [jsonChars], by decide, by decide⟩
    | false => exact ⟨'f', ['a', 'l', 's', 'e'], by simp [jsonChars], by decide, by decide⟩
  | num d =>
    obtain ⟨c, cs, hc, hclass⟩ := toChars_cons d
    refine ⟨c, cs, by simp [jsonChars, hc], ?_, ?_⟩
    · rcases hclass with rfl | h
      · decide
      · exact isWs_digit_false c h
    · rcases hclass with rfl | h
      · decide
      · exact isDigitChar_ne c h ']' (by decide)
  | str s =>
    exact ⟨'"', (s.data.map escapeChar).flatten ++ ['"'], by simp [jsonChars, strChars],
      by decide, by decide⟩
  | arr l =>
    cases l with
    | nil => exact ⟨'[', [']'], by simp [jsonChars], by decide, by decide⟩
    | cons x xs =>
      exact ⟨'[', jsonChars x ++ elemsTail xs ++ [']'], by simp [jsonChars], by decide, by decide⟩
  | obj ms =>
    cases ms with
    | nil => exact ⟨'\x7b', ['\x7d'], by simp [jsonChars], by decide, by decide⟩
    | cons kv kvs =>
      exact ⟨'\x7b', strChars kv.1 ++ ':' :: jsonChars kv.2 ++ membersTail kvs ++ ['\x7d'],
        by simp [jsonChars], by decide, by decide⟩

theorem parse_roundtrip : ∀ fuel : Nat,
    (∀ j rest, (jsonChars j).length + rest.length < fuel → GoodRest rest →
        parseValue fuel (jsonChars j ++ rest) = some (j, rest)) ∧
    (∀ l rest, (elemsTail l).length + 1 + rest.length < fuel → GoodRest rest →
        parseArrTail fuel (elemsTail l ++ (']' :: rest)) = some (l, rest)) ∧
    (∀ k v rest, (strChars k).length + 1 + (jsonChars v).length + rest.length < fuel →
        GoodRest rest →
        parseMember fuel (strChars k ++ (':' :: (jsonChars v ++ rest))) = some ((k, v), rest)) ∧
    (∀ ms rest, (membersTail ms).length + 1 + rest.length < fuel → GoodRest rest →
        parseObjTail fuel (membersTail ms ++ ('\x7d' :: rest)) = some (ms, rest)) := by
  intro fuel
  induction fuel with
  | zero =>
    refine ⟨?_, ?_, ?_, ?_⟩ <;> intro _ _ <;> intros <;> omega
  | succ f ih =>
    obtain ⟨ihV, ihA, ihM, ihO⟩ := ih
    refine ⟨?_, ?_, ?_, ?_⟩
    · -- parseValue
      intro j rest hlen hrest
      cases j with
      | null =>
        simp only [jsonChars, List.cons_append, List.nil_append, parseValue]
        rw [skipWs_cons_not _ _ (by decide)]
        rfl
      | bool b =>
        cases b <;>
          · simp only [jsonChars, List.cons_append, List.nil_append, parseValue]
            rw [skipWs_cons_not _ _ (by decide)]
            rfl
      | num d =>
        obtain ⟨c, cs, hc, hclass⟩ := toChars_cons d
        have hws : isWs c = false := by
          rcases hclass with rfl | h
          · decide
          · exact isWs_digit_false c h
        have hn : ¬c = 'n' := by
          rcases hclass with rfl | h
          · decide
          · exact isDigitChar_ne c h 'n' (by decide)
        have ht : ¬c = 't' := by
          rcases hclass with rfl | h
          · decide
          · exact isDigitChar_ne c h 't' (by decide)
        have hf : ¬c = 'f' := by
          rcases hclass with rfl | h
          · decide
          · exact isDigitChar_ne c h 'f' (by decide)
        have hq : ¬c = '"' := by
          rcases hclass with rfl | h
          · decide
          · exact isDigitChar_ne c h '"' (by decide)
        have hb : ¬c = '[' := by
          rcases hclass with rfl | h
          · decide
          · exact isDigitChar_ne c h '[' (by decide)
        have hbr : ¬c = '\x7b' := by
          rcases hclass with rfl | h
          · decide
          · exact isDigitChar_ne c h '\x7b' (by decide)
        simp only [jsonChars]
        rw [hc, List.cons_append]
        simp only [parseValue]
        rw [skipWs_cons_not _ _ hws]
        simp only [hn, ht, hf, hq, hb, hbr, if_false]
        rw [← List.cons_append, ← hc,
          parseNumber_toChars d rest (goodRest_numStop rest hrest)]
      | str s =>
        obtain ⟨sdata⟩ := s
        simp only [jsonChars, strChars, List.cons_append, List.append_assoc, List.nil_append]
        simp only [parseValue]
        rw [skipWs_cons_not _ _ (by decide)]
        simp only [reduceIte]
        rw [parseStringBody_escaped sdata rest]
        rfl
      | arr l =>
        cases l with
        | nil =>
          simp only [jsonChars, List.cons_append, List.nil_append, parseValue]
          rw [skipWs_cons_not _ _ (by decide)]
          rfl
        | cons x xs =>
          obtain ⟨c, cs, hc, hws, hnb⟩ := jsonChars_head x
          have hlen' : (jsonChars x).length + ((elemsTail xs).length + 1 + rest.length) < f
              ∧ (elemsTail xs).length + 1 + rest.length < f := by
            have : (jsonChars (Json.arr (x :: xs))).length
                = 2 + (jsonChars x).length + (elemsTail xs).length := by
              simp [jsonChars]
              omega
            rw [this] at hlen
            omega
          have hx := ihV x (elemsTail xs ++ (']' :: rest))
            (by simp only [List.length_append, List.length_cons]; omega)
            (goodRest_elemsTail xs rest)
          have hxs := ihA xs rest hlen'.2 hrest
          have hx2 : parseValue f (c :: (cs ++ (elemsTail xs ++ ']' :: rest)))
              = some (x, elemsTail xs ++ ']' :: rest) := by
            rw [← List.cons_append, ← hc]
            exact hx
          simp only [jsonChars, List.cons_append, List.append_assoc, List.nil_append]
          simp only [parseValue]
          rw [skipWs_cons_not _ _ (by decide)]
          rw [hc]
          simp only [List.cons_append]
          rw [skipWs_cons_not _ _ hws]
          simp [hx2, hxs, hnb]
      | obj ms =>
        cases ms with
        | nil =>
          simp only [jsonChars, List.cons_append, List.nil_append, parseValue]
          rw [skipWs_cons_not _ _ (by decide)]
          rfl
        | cons kv kvs =>
          obtain ⟨k, v⟩ := kv
          have hlen' : (strChars k).length + 1 + (jsonChars v).length
                + ((membersTail kvs).length + 1 + rest.length) < f
              ∧ (membersTail kvs).length + 1 + rest.length < f := by
            have : (jsonChars (Json.obj ((k, v) :: kvs))).length
                = 3 + (strChars k).length + (jsonChars v).length
                  + (membersTail kvs).length := by
              simp [jsonChars]
              omega
            rw [this] at hlen
            omega
          have hm := ihM k v (membersTail kvs ++ ('\x7d' :: rest))
            (by simp only [List.length_append, List.length_cons]; omega)
            (goodRest_membersTail kvs rest)
          have hkvs := ihO kvs rest hlen'.2 hrest
          simp only [strChars, List.cons_append, List.append_assoc, List.nil_append] at hm
          simp only [jsonChars, strChars, List.cons_append, List.append_assoc, List.nil_append]
          simp only [parseValue]
          rw [skipWs_cons_not _ _ (by decide)]
          simp [skipWs_cons_not '"'
            ((List.map escapeChar k.data).flatten
              ++ '"' :: ':' :: (jsonChars v ++ (membersTail kvs ++ '\x7d' :: rest)))
            (by decide), hm, hkvs]
    · -- parseArrTail
      intro l rest hlen hrest
      cases l with
      | nil =>
        simp only [elemsTail, List.nil_append, parseArrTail]
        rw [skipWs_cons_not _ _ (by decide)]
        rfl
      | cons x xs =>
        have hlen' : (jsonChars x).length + ((elemsTail xs).length + 1 + rest.length) < f
            ∧ (elemsTail xs).length + 1 + rest.length < f := by
          have : (elemsTail (x :: xs)).length
              = 1 + (jsonChars x).length + (elemsTail xs).length := by
            simp [elemsTail]
            omega
          rw [this] at hlen
          omega
        have hx := ihV x (elemsTail xs ++ (']' :: rest))
          (by simp only [List.length_append, List.length_cons]; omega)
          (goodRest_elemsTail xs rest)
        have hxs := ihA xs rest hlen'.2 hrest
        simp only [elemsTail, List.cons_append, List.append_assoc]
        simp only [parseArrTail]
        rw [skipWs_cons_not _ _ (by decide)]
        simp [hx, hxs]
    · -- parseMember
      intro k v rest hlen hrest
      obtain ⟨kdata⟩ := k
      have hlen' : (jsonChars v).length + rest.length < f := by
        have h2 : 2 ≤ (strChars ⟨kdata⟩).length := by
          simp [strChars]
        omega
      have hv := ihV v rest hlen' hrest
      simp only [strChars, List.cons_append, List.append_assoc, List.nil_append]
      simp only [parseMember]
      rw [skipWs_cons_not _ _ (by decide)]
      simp [parseStringBody_escaped kdata (':' :: (jsonChars v ++ rest)),
        skipWs_cons_not ':' (jsonChars v ++ rest) (by decide), hv]
    · -- parseObjTail
      intro ms rest hlen hrest
      cases ms with
      | nil =>
        simp only [membersTail, List.nil_append, parseObjTail]
        rw [skipWs_cons_not _ _ (by decide)]
        rfl
      | cons kv kvs =>
        obtain ⟨k, v⟩ := kv
        have hlen' : (strChars k).length + 1 + (jsonChars v).length
              + ((membersTail kvs).length + 1 + rest.length) < f
            ∧ (membersTail kvs).length + 1 + rest.length < f := by
          have : (membersTail ((k, v) :: kvs)).length
              = 2 + (strChars k).length + (jsonChars v).length
                + (membersTail kvs).length := by
            simp [membersTail]
            omega
          rw [this] at hlen
          omega
        have hm := ihM k v (membersTail kvs ++ ('\x7d' :: rest))
          (by simp only [List.length_append, List.length_cons]; omega)
          (goodRest_membersTail kvs rest)
        have hkvs := ihO kvs rest hlen'.2 hrest
        simp only [strChars, List.cons_append, List.append_assoc, List.nil_append] at hm
        simp only [membersTail, strChars, List.cons_append, List.append_assoc]
        simp only [parseObjTail]
        rw [skipWs_cons_not _ _ (by decide)]
        simp [hm, hkvs]

theorem jsonParse_print (j : Json) : jsonParse ⟨jsonChars j⟩ = some j := by
  have h := (parse_roundtrip ((jsonChars j).length + 1)).1 j [] (by simp) goodRest_nil
  rw [List.append_nil] at h
  unfold jsonParse
  simp [h, skipWs]

/-! ### The cart data model (`src/script.js`) -/

/-- A cart line item: the object `addToCart` pushes (line 93):
`{ id, name, price: parseFloat(price), image, quantity: 1 }`.  The price
string of the page is already parsed to its numeric value here. -/
structure Item where
  id : String
  name : String
  price : JNum
  image : String
  quantity : Nat
deriving DecidableEq, Repr

/-- `addToCart` (lines 85-98): if a line item with the id exists, increment
the first match's quantity; otherwise push a new line item with quantity 1. -/
def addToCart (cart : List Item) (productId name : String) (price : JNum)
    (image : String) : List Item :=
  match cart with
  | [] => [⟨productId, name, price, image, 1⟩]
  | it :: rest =>
    if it.id = productId then { it with quantity := it.quantity + 1 } :: rest
    else it :: addToCart rest productId name price image

/-- Cart-page `+` button (lines 316-335): `item.quantity++` on the first
match; no effect when the id is absent. -/
def incrementItem (cart : List Item) (id : String) : List Item :=
  match cart with
  | [] => []
  | it :: rest =>
    if it.id = id then { it with quantity := it.quantity + 1 } :: rest
    else it :: incrementItem rest id

/-- Cart-page `-` button (lines 316-335): decrement the first match when its
quantity exceeds 1; otherwise `cart.filter(i => i.id !== id)`. -/
def decrementItem (cart : List Item) (id : String) : List Item :=
  match cart with
  | [] => []
  | it :: rest =>
    if it.id = id then
      if 1 < it.quantity then { it with quantity := it.quantity - 1 } :: rest
      else rest.filter (fun i => i.id != id)
    else it :: decrementItem rest id

/-- Remove button (line 310): `cart.filter(item => item.id !== idToRemove)`. -/
def removeItem (cart : List Item) (id : String) : List Item :=
  cart.filter (fun it => it.id != id)

/-! ### Persistence (`saveCart`, hydration at line 9) -/

/-- Json encoding of a line item, with `JSON.stringify`'s key order. -/
def encodeItem (it : Item) : Json :=
  .obj [("id", .str it.id), ("name", .str it.name), ("price", .num it.price),
        ("image", .str it.image), ("quantity", .num ⟨(it.quantity : Int), 0⟩)]

/-- The JSON value the `cart` array denotes. -/
def cartJson (cart : List Item) : Json := .arr (cart.map encodeItem)

/-- `saveCart` (lines 27-30): `localStorage.setItem('cart', JSON.stringify(cart))`. -/
def serializeCart (cart : List Item) : String := ⟨jsonChars (cartJson cart)⟩

/-- JS truthiness of a parsed JSON value (`null`, `false`, `0`, `""` falsy). -/
def truthy : Json → Bool
  | .null => false
  | .bool b => b
  | .num d => d.m != 0
  | .str s => s != ""
  | .arr _ => true
  | .obj _ => true

/-- Hydration (line 9): `JSON.parse(localStorage.getItem('cart')) || []`.
An absent key yields `null`, which `JSON.parse` coerces to the string
`"null"`; a parse failure is an uncaught `SyntaxError`, modelled as
`Except.error ()`. -/
def hydrate (stored : Option String) : Except Unit Json :=
  match jsonParse (stored.getD "null") with
  | none => .error ()
  | some j => .ok (if truthy j then j else .arr [])

/-- First member bound to a key in a parsed JSON object (JS field access). -/
def jsGet (ms : List (String × Json)) (key : String) : Option Json :=
  (ms.find? (fun kv => kv.1 == key)).map (fun kv => kv.2)

/-- Reading a parsed JSON value back as a typed line item.  The JS code uses
the parsed objects directly; this is the typed view of that use. -/
def decodeItem (j : Json) : Option Item :=
  match j with
  | .obj ms =>
    match jsGet ms "id", jsGet ms "name", jsGet ms "price", jsGet ms "image",
        jsGet ms "quantity" with
    | some (.str i), some (.str n), some (.num p), some (.str img), some (.num q) =>
      if q.e = 0 ∧ 0 ≤ q.m then some ⟨i, n, p, img, q.m.toNat⟩ else none
    | _, _, _, _, _ => none
  | _ => none

/-- Reading a parsed JSON value back as a typed cart. -/
def decodeCart (j : Json) : Option (List Item) :=
  match j with
  | .arr l => l.mapM decodeItem
  | _ => none

theorem decodeItem_encodeItem (it : Item) : decodeItem (encodeItem it) = some it := by
  obtain ⟨i, n, p, img, q⟩ := it
  simp [decodeItem, encodeItem, jsGet, List.find?]

theorem decodeCart_cartJson (cart : List Item) : decodeCart (cartJson cart) = some cart := by
  unfold decodeCart cartJson
  induction cart with
  | nil => rfl
  | cons it rest ih =>
    simp only [List.map_cons, List.mapM_cons, decodeItem_encodeItem]
    simp only [List.map] at ih
    rw [ih]
    rfl

theorem hydrate_serializeCart (cart : List Item) :
    hydrate (some (serializeCart cart)) = .ok (cartJson cart) := by
  unfold hydrate serializeCart
  rw [Option.getD_some, jsonParse_print]
  rfl

theorem hydrate_none : hydrate none = .ok (Json.arr []) := by rfl

/-! ### Page state and event handlers -/

/-- The page state the cart code manipulates: the in-memory `cart` array and
the `localStorage` slot under the key `'cart'`. -/
structure AppState where
  cart : List Item
  store : Option String
deriving DecidableEq

/-- One user-visible cart mutation, as wired by the event handlers. -/
inductive UIOp where
  | add (id name : String) (price : JNum) (image : String)
  | increase (id : String)
  | decrease (id : String)
  | remove (id : String)
  | checkout

/-- Effect of each handler.  Every branch that mutates `cart` calls
`saveCart()` immediately (lines 95, 311, 331, 346); the quantity buttons do
nothing when `cart.find` misses (line 320), and checkout clears only a
non-empty cart (lines 342-347). -/
def uiStep (s : AppState) : UIOp → AppState
  | .add id name price image =>
    let c := addToCart s.cart id name price image
    ⟨c, some (serializeCart c)⟩
  | .increase id =>
    if s.cart.any (fun it => it.id == id) then
      let c := incrementItem s.cart id
      ⟨c, some (serializeCart c)⟩
    else s
  | .decrease id =>
    if s.cart.any (fun it => it.id == id) then
      let c := decrementItem s.cart id
      ⟨c, some (serializeCart c)⟩
    else s
  | .remove id =>
    let c := removeItem s.cart id
    ⟨c, some (serializeCart c)⟩
  | .checkout =>
    if s.cart.length > 0 then ⟨[], some (serializeCart [])⟩ else s

/-- The persisted value is exactly the serialization of the in-memory cart. -/
def StoreInv (s : AppState) : Prop := s.store = some (serializeCart s.cart)

/-! ### Totals (`renderCart`, lines 262-305) -/

/-- `toFixed(2)` followed by `parseFloat`: round to 2 decimal places (ties
rounded to the larger value, as `toFixed` specifies). -/
def round2 (q : ℚ) : ℚ := ((round (q * 100) : Int) : ℚ) / 100

/-- Line 281: `(item.price * item.quantity).toFixed(2)`, re-parsed on 282. -/
def itemTotalPrice (it : Item) : ℚ := round2 (it.price.toRat * (it.quantity : ℚ))

/-- Lines 277-282: `subtotal += parseFloat(itemTotalPrice)` over the cart. -/
def computeSubtotal (cart : List Item) : ℚ :=
  cart.foldl (fun sub it => sub + itemTotalPrice it) 0

/-- Line 264: `const SHIPPING_COST = 5.00`. -/
def SHIPPING_COST : ℚ := 5

/-- Lines 277-304: the subtotal/total pair the totals code computes. -/
def computeTotals (cart : List Item) : ℚ × ℚ :=
  (computeSubtotal cart, computeSubtotal cart + SHIPPING_COST)

/-- Modelled from the spec's wording (§4.2): subtotal is the sum over the
line items of price×quantity rounded to 2 decimal places per item before
summing.  Compared against `computeTotals` below. -/
def specSubtotal (cart : List Item) : ℚ :=
  (cart.map (fun it => round2 (it.price.toRat * (it.quantity : ℚ)))).sum

/-- Display state of the cart page after `renderCart()`. -/
structure CartDisplay where
  subtotal : ℚ
  total : ℚ
  checkoutDisabled : Bool
  emptyMessageShown : Bool
deriving DecidableEq, Repr

/-- `renderCart`: the empty-cart early return (lines 266-271) shows `0.00`
for both figures, disables checkout and shows the empty message; otherwise
the totals path runs. -/
def renderCartDisplay (cart : List Item) : CartDisplay :=
  if cart.length = 0 then ⟨0, 0, true, true⟩
  else ⟨(computeTotals cart).1, (computeTotals cart).2, false, false⟩

/-! ### Catalog filtering (`fetchFeaturedProducts`, `fetchAllProducts`) -/

/-- A raw record from the product API (the fields the filters inspect). -/
structure ProductRecord where
  product_name : Option String
  image_url : Option String
  brands : Option String
deriving DecidableEq, Repr

/-- JS truthiness of an optional string field (absent and `""` falsy). -/
def truthyField : Option String → Bool
  | none => false
  | some s => s != ""

/-- `fetchFeaturedProducts` (lines 153-161): filter on name, image and brand,
then display `slice(0, 4)` (nothing when the filter leaves no record). -/
def featuredSelect (products : List ProductRecord) : List ProductRecord :=
  let ps := products.filter (fun p =>
    truthyField p.product_name && truthyField p.image_url && truthyField p.brands)
  if ps.length = 0 then [] else ps.take 4

/-- `fetchAllProducts` (lines 218-221): filter on name and image only, then
`slice(0, Math.min(products.length, 20))`. -/
def allSelect (products : List ProductRecord) : List ProductRecord :=
  let ps := products.filter (fun p =>
    truthyField p.product_name && truthyField p.image_url)
  ps.take (min ps.length 20)

/-! ### The cart invariant -/

/-- One cart-engine operation (the checkout clear is a state-level action). -/
inductive CartOp where
  | add (id name : String) (price : JNum) (image : String)
  | increase (id : String)
  | decrease (id : String)
  | remove (id : String)

/-- Apply one operation to the in-memory cart. -/
def cartStep (cart : List Item) : CartOp → List Item
  | .add id name price image => addToCart cart id name price image
  | .increase id => incrementItem cart id
  | .decrease id => decrementItem cart id
  | .remove id => removeItem cart id

/-- Run a sequence of operations from a starting cart. -/
def runOps (ops : List CartOp) (cart : List Item) : List Item :=
  ops.foldl cartStep cart

/-- The spec's cart invariant: at most one line item per id, and every
present item has quantity at least 1. -/
def CartInv (cart : List Item) : Prop :=
  (cart.map Item.id).Nodup ∧ ∀ it ∈ cart, 1 ≤ it.quantity

theorem addToCart_id_mem (cart : List Item) (pid n : String) (p : JNum) (img : String) :
    ∀ x ∈ (addToCart cart pid n p img).map Item.id, x ∈ cart.map Item.id ∨ x = pid := by
  induction cart with
  | nil =>
    intro x hx
    simp only [addToCart, List.map_cons, List.map_nil, List.mem_singleton] at hx
    exact Or.inr hx
  | cons it rest ih =>
    intro x hx
    simp only [addToCart] at hx
    by_cases h : it.id = pid
    · rw [if_pos h] at hx
      simp only [List.map_cons, List.mem_cons] at hx
      rcases hx with hx | hx
      · exact Or.inl (by simp [hx])
      · exact Or.inl (by simp [hx])
    · rw [if_neg h] at hx
      simp only [List.map_cons, List.mem_cons] at hx
      rcases hx with hx | hx
      · exact Or.inl (by simp [hx])
      · rcases ih x hx with h2 | h2
        · exact Or.inl (by simp [h2])
        · exact Or.inr h2

theorem addToCart_inv (cart : List Item) (pid n : String) (p : JNum) (img : String)
    (h : CartInv cart) : CartInv (addToCart cart pid n p img) := by
  induction cart with
  | nil =>
    constructor
    · simp [addToCart]
    · intro x hx
      simp only [addToCart, List.mem_singleton] at hx
      subst hx
      exact le_refl 1
  | cons it rest ih =>
    obtain ⟨hnd, hq⟩ := h
    simp only [List.map_cons, List.nodup_cons] at hnd
    have hinvrest : CartInv rest :=
      ⟨hnd.2, fun x hx => hq x (List.mem_cons_of_mem _ hx)⟩
    simp only [addToCart]
    by_cases hid : it.id = pid
    · rw [if_pos hid]
      constructor
      · simp only [List.map_cons, List.nodup_cons]
        exact hnd
      · intro x hx
        rcases List.mem_cons.mp hx with rfl | hx
        · simp
        · exact hq x (List.mem_cons_of_mem _ hx)
    · rw [if_neg hid]
      have ihr := ih hinvrest
      constructor
      · simp only [List.map_cons, List.nodup_cons]
        refine ⟨?_, ihr.1⟩
        intro hmem
        rcases addToCart_id_mem rest pid n p img it.id hmem with h2 | h2
        · exact hnd.1 h2
        · exact hid h2
      · intro x hx
        rcases List.mem_cons.mp hx with rfl | hx
        · exact hq x (List.mem_cons_self _ _)
        · exact ihr.2 x hx

theorem incrementItem_map_id (cart : List Item) (id : String) :
    (incrementItem cart id).map Item.id = cart.map Item.id := by
  induction cart with
  | nil => rfl
  | cons it rest ih =>
    simp only [incrementItem]
    by_cases h : it.id = id
    · rw [if_pos h]
      simp
    · rw [if_neg h]
      simp [ih]

theorem incrementItem_quantity (cart : List Item) (id : String)
    (h : ∀ it ∈ cart, 1 ≤ it.quantity) :
    ∀ it ∈ incrementItem cart id, 1 ≤ it.quantity := by
  induction cart with
  | nil => intro x hx; cases hx
  | cons it rest ih =>
    intro x hx
    simp only [incrementItem] at hx
    by_cases hid : it.id = id
    · rw [if_pos hid] at hx
      rcases List.mem_cons.mp hx with rfl | hx
      · simp
      · exact h x (List.mem_cons_of_mem _ hx)
    · rw [if_neg hid] at hx
      rcases List.mem_cons.mp hx with rfl | hx
      · exact h x (List.mem_cons_self _ _)
      · exact ih (fun y hy => h y (List.mem_cons_of_mem _ hy)) x hx

theorem incrementItem_inv (cart : List Item) (id : String) (h : CartInv cart) :
    CartInv (incrementItem cart id) :=
  ⟨by rw [incrementItem_map_id]; exact h.1, incrementItem_quantity cart id h.2⟩

theorem decrementItem_id_sublist (cart : List Item) (id : String) :
    List.Sublist ((decrementItem cart id).map Item.id) (cart.map Item.id) := by
  induction cart with
  | nil => simp [decrementItem]
  | cons it rest ih =>
    simp only [decrementItem]
    by_cases h : it.id = id
    · rw [if_pos h]
      by_cases hq : 1 < it.quantity
      · rw [if_pos hq]
        simp
      · rw [if_neg hq]
        refine List.Sublist.trans ?_ (List.sublist_cons_self _ _)
        exact List.Sublist.map Item.id (List.filter_sublist rest)
    · rw [if_neg h]
      simpa using List.Sublist.cons₂ it.id ih

theorem decrementItem_quantity (cart : List Item) (id : String)
    (h : ∀ it ∈ cart, 1 ≤ it.quantity) :
    ∀ it ∈ decrementItem cart id, 1 ≤ it.quantity := by
  induction cart with
  | nil => intro x hx; cases hx
  | cons it rest ih =>
    intro x hx
    simp only [decrementItem] at hx
    by_cases hid : it.id = id
    · rw [if_pos hid] at hx
      by_cases hq : 1 < it.quantity
      · rw [if_pos hq] at hx
        rcases List.mem_cons.mp hx with rfl | hx
        · simp
          omega
        · exact h x (List.mem_cons_of_mem _ hx)
      · rw [if_neg hq] at hx
        exact h x (List.mem_cons_of_mem _ (List.mem_of_mem_filter hx))
    · rw [if_neg hid] at hx
      rcases List.mem_cons.mp hx with rfl | hx
      · exact h x (List.mem_cons_self _ _)
      · exact ih (fun y hy => h y (List.mem_cons_of_mem _ hy)) x hx

theorem decrementItem_inv (cart : List Item) (id : String) (h : CartInv cart) :
    CartInv (decrementItem cart id) :=
  ⟨(h.1).sublist (decrementItem_id_sublist cart id),
    decrementItem_quantity cart id h.2⟩

theorem removeItem_inv (cart : List Item) (id : String) (h : CartInv cart) :
    CartInv (removeItem cart id) := by
  constructor
  · exact (h.1).sublist (List.Sublist.map Item.id (List.filter_sublist cart))
  · intro x hx
    exact h.2 x (List.mem_of_mem_filter hx)

theorem cartStep_inv (cart : List Item) (op : CartOp) (h : CartInv cart) :
    CartInv (cartStep cart op) := by
  cases op with
  | add id n p img => exact addToCart_inv cart id n p img h
  | increase id => exact incrementItem_inv cart id h
  | decrease id => exact decrementItem_inv cart id h
  | remove id => exact removeItem_inv cart id h

theorem runOps_inv (ops : List CartOp) :
    ∀ cart, CartInv cart → CartInv (runOps ops cart) := by
  induction ops with
  | nil => intro cart h; exact h
  | cons op ops ih =>
    intro cart h
    exact ih (cartStep cart op) (cartStep_inv cart op h)

theorem cartInv_nil : CartInv [] := ⟨List.nodup_nil, fun x hx => absurd hx (List.not_mem_nil x)⟩

theorem addToCart_fresh (cart : List Item) (pid n : String) (p : JNum) (img : String)
    (h : ∀ it ∈ cart, it.id ≠ pid) :
    addToCart cart pid n p img = cart ++ [⟨pid, n, p, img, 1⟩] := by
  induction cart with
  | nil => rfl
  | cons it rest ih =>
    simp only [addToCart, List.cons_append]
    rw [if_neg (h it (List.mem_cons_self _ _)), ih (fun y hy => h y (List.mem_cons_of_mem _ hy))]

theorem addToCart_hit (cart : List Item) (x : Item) (post : List Item) (pid n : String)
    (p : JNum) (img : String) (hpre : ∀ it ∈ cart, it.id ≠ pid) (hx : x.id = pid) :
    addToCart (cart ++ x :: post) pid n p img
      = cart ++ { x with quantity := x.quantity + 1 } :: post := by
  induction cart with
  | nil => simp [addToCart, hx]
  | cons it rest ih =>
    simp only [List.cons_append, addToCart, List.append_eq]
    rw [if_neg (hpre it (List.mem_cons_self _ _)),
      ih (fun y hy => hpre y (List.mem_cons_of_mem _ hy))]

theorem computeSubtotal_general (cart : List Item) :
    ∀ a : ℚ, cart.foldl (fun sub it => sub + itemTotalPrice it) a
      = a + (cart.map itemTotalPrice).sum := by
  induction cart with
  | nil => intro a; simp
  | cons it rest ih =>
    intro a
    simp only [List.foldl_cons, ih, List.map_cons, List.sum_cons]
    ring

theorem computeSubtotal_eq_spec (cart : List Item) :
    computeSubtotal cart = specSubtotal cart := by
  have h := computeSubtotal_general cart 0
  simp only [computeSubtotal] at *
  rw [h, zero_add]
  rfl

theorem round2_hundredths (n : Int) : round2 ((n : ℚ) / 100) = (n : ℚ) / 100 := by
  unfold round2
  rw [div_mul_cancel₀ _ (by norm_num : (100 : ℚ) ≠ 0), round_intCast]

theorem featuredSelect_eq (ps : List ProductRecord) :
    featuredSelect ps = (ps.filter (fun p =>
      truthyField p.product_name && truthyField p.image_url && truthyField p.brands)).take 4 := by
  unfold featuredSelect
  by_cases h : (ps.filter (fun p =>
      truthyField p.product_name && truthyField p.image_url && truthyField p.brands)).length = 0
  · rw [if_pos h]
    rw [List.length_eq_zero] at h
    rw [h]
    rfl
  · rw [if_neg h]

theorem allSelect_eq (ps : List ProductRecord) :
    allSelect ps = (ps.filter (fun p =>
      truthyField p.product_name && truthyField p.image_url)).take 20 := by
  show (ps.filter (fun p => truthyField p.product_name && truthyField p.image_url)).take
      (min (ps.filter (fun p =>
        truthyField p.product_name && truthyField p.image_url)).length 20) = _
  by_cases h : (ps.filter (fun p =>
      truthyField p.product_name && truthyField p.image_url)).length ≤ 20
  · rw [show min (ps.filter (fun p =>
        truthyField p.product_name && truthyField p.image_url)).length 20
      = (ps.filter (fun p =>
        truthyField p.product_name && truthyField p.image_url)).length from by omega,
      List.take_length, List.take_of_length_le h]
  · rw [show min (ps.filter (fun p =>
        truthyField p.product_name && truthyField p.image_url)).length 20 = 20 from by omega]

/-! ### The claims -/

/-- C1: for every sequence of add/increment/decrement/remove operations
starting from the empty cart, the resulting cart never contains two line
items with the same id, and every present line item has quantity ≥ 1. -/
theorem cart_ops_preserve_invariant (ops : List CartOp) : CartInv (runOps ops []) :=
  runOps_inv ops [] cartInv_nil

/-- C2 (counterexample): the stored value `"\x7b"` (a lone opening brace) is
unparseable, and hydration raises — `JSON.parse` throws out of the uncaught
line 9 expression — instead of returning an empty cart: the claim that load
never raises on unparseable data is false. -/
theorem hydrate_unparseable_raises : hydrate (some "\x7b") = Except.error () := rfl

/-- C2 (amended): `load()` returns the previously saved cart; an absent
stored value hydrates to the empty cart without raising; a present but
unparseable stored value makes `JSON.parse` throw (hydration errors) rather
than silently yielding the empty cart. -/
theorem hydrate_amended :
    (∀ cart : List Item, hydrate (some (serializeCart cart)) = .ok (cartJson cart)) ∧
    hydrate none = .ok (Json.arr []) ∧
    hydrate (some "\x7b") = Except.error () :=
  ⟨hydrate_serializeCart, hydrate_none, rfl⟩

/-- C3: the totals computation returns subtotal = Σ round2(price×quantity)
(per item, before summing) and total = subtotal + 5.00; on the cart with
(price 10.00, qty 2) and (price 3.33, qty 3) it yields 29.99 and 34.99. -/
theorem computeTotals_spec :
    (∀ cart : List Item,
      computeTotals cart = (specSubtotal cart, specSubtotal cart + 5)) ∧
    computeTotals [⟨"p1", "A", ⟨10, 0⟩, "img1", 2⟩, ⟨"p2", "B", ⟨333, 2⟩, "img2", 3⟩]
      = (2999 / 100, 3499 / 100) := by
  constructor
  · intro cart
    unfold computeTotals SHIPPING_COST
    rw [computeSubtotal_eq_spec]
  · have h1 : itemTotalPrice ⟨"p1", "A", ⟨10, 0⟩, "img1", 2⟩ = 20 := by
      unfold itemTotalPrice JNum.toRat
      norm_num
      have := round2_hundredths 2000
      norm_num at this
      simpa [show ((10 : ℚ) * 2) = (2000 : ℚ) / 100 by norm_num] using this
    have h2 : itemTotalPrice ⟨"p2", "B", ⟨333, 2⟩, "img2", 3⟩ = 999 / 100 := by
      unfold itemTotalPrice JNum.toRat
      have := round2_hundredths 999
      norm_num at this ⊢
      simpa [show ((333 : ℚ) / 100 * 3) = (999 : ℚ) / 100 by norm_num] using this
    unfold computeTotals computeSubtotal SHIPPING_COST
    simp only [List.foldl_cons, List.foldl_nil, h1, h2]
    norm_num

/-- C4: on the empty cart `renderCart` takes the early-return branch: the
displayed subtotal and total are both 0.00 (the shipping constant is not
added), checkout is disabled and the empty-state message is shown. -/
theorem renderCart_empty_display : renderCartDisplay [] = ⟨0, 0, true, true⟩ := rfl

/-- C5: adding a fresh id appends a line item with quantity 1; a second add
with the same id leaves exactly one line item with that id, of quantity 2
(and the first call's name/price/image). -/
theorem add_fresh_then_add_again (cart : List Item) (id n n2 : String) (p p2 : JNum)
    (img img2 : String) (h : ∀ it ∈ cart, it.id ≠ id) :
    addToCart cart id n p img = cart ++ [⟨id, n, p, img, 1⟩] ∧
    (addToCart (addToCart cart id n p img) id n2 p2 img2).filter (fun it => it.id == id)
      = [⟨id, n, p, img, 2⟩] := by
  have hfresh := addToCart_fresh cart id n p img h
  refine ⟨hfresh, ?_⟩
  rw [hfresh, addToCart_hit cart ⟨id, n, p, img, 1⟩ [] id n2 p2 img2 h rfl]
  rw [List.filter_append]
  have hnil : cart.filter (fun it => it.id == id) = [] := by
    rw [List.filter_eq_nil_iff]
    intro a ha
    simpa using h a ha
  rw [hnil]
  simp

/-- C5 witness. -/
theorem add_fresh_then_add_again_witness :
    addToCart [⟨"a", "A", ⟨1, 0⟩, "i", 1⟩] "x" "N" ⟨10, 0⟩ "im"
        = [⟨"a", "A", ⟨1, 0⟩, "i", 1⟩] ++ [⟨"x", "N", ⟨10, 0⟩, "im", 1⟩] ∧
    (addToCart (addToCart [⟨"a", "A", ⟨1, 0⟩, "i", 1⟩] "x" "N" ⟨10, 0⟩ "im") "x" "N2"
        ⟨3, 0⟩ "im2").filter (fun it => it.id == "x") = [⟨"x", "N", ⟨10, 0⟩, "im", 2⟩] :=
  add_fresh_then_add_again [⟨"a", "A", ⟨1, 0⟩, "i", 1⟩] "x" "N" "N2" ⟨10, 0⟩ ⟨3, 0⟩
    "im" "im2" (by decide)

/-- C6: on a cart whose ids are unique, decrementing a line item of
quantity 1 removes it entirely (no item with that id remains), while
decrementing one of quantity 2 leaves it present with quantity 1. -/
theorem decrement_removes_or_decrements (cart : List Item) (it : Item)
    (hmem : it ∈ cart) (hnd : (cart.map Item.id).Nodup) :
    (it.quantity = 1 → ∀ x ∈ decrementItem cart it.id, x.id ≠ it.id) ∧
    (it.quantity = 2 → { it with quantity := 1 } ∈ decrementItem cart it.id) := by
  induction cart with
  | nil => cases hmem
  | cons y rest ih =>
    simp only [List.map_cons, List.nodup_cons] at hnd
    by_cases hy : y.id = it.id
    · have hyit : y = it := by
        rcases List.mem_cons.mp hmem with h | hmem2
        · exact h.symm
        · exact absurd (hy ▸ List.mem_map_of_mem Item.id hmem2) hnd.1
      subst hyit
      constructor
      · intro h1 x hx
        simp only [decrementItem, if_pos rfl] at hx
        rw [if_neg (by omega : ¬1 < y.quantity)] at hx
        have := List.of_mem_filter hx
        simpa using this
      · intro h2
        simp only [decrementItem, if_pos rfl]
        rw [if_pos (by omega : 1 < y.quantity), h2]
        exact List.mem_cons_self _ _
    · have hmem2 : it ∈ rest := by
        rcases List.mem_cons.mp hmem with h | h
        · exact absurd (congrArg Item.id h.symm) hy
        · exact h
      have ihr := ih hmem2 hnd.2
      constructor
      · intro h1 x hx
        simp only [decrementItem, if_neg hy] at hx
        rcases List.mem_cons.mp hx with rfl | hx
        · exact hy
        · exact ihr.1 h1 x hx
      · intro h2
        simp only [decrementItem, if_neg hy]
        exact List.mem_cons_of_mem _ (ihr.2 h2)

/-- C6 witness. -/
theorem decrement_removes_or_decrements_witness :
    ((⟨"a", "A", ⟨5, 0⟩, "i", 2⟩ : Item).quantity = 1 →
      ∀ x ∈ decrementItem [⟨"a", "A", ⟨5, 0⟩, "i", 2⟩] (⟨"a", "A", ⟨5, 0⟩, "i", 2⟩ : Item).id,
        x.id ≠ (⟨"a", "A", ⟨5, 0⟩, "i", 2⟩ : Item).id) ∧
    ((⟨"a", "A", ⟨5, 0⟩, "i", 2⟩ : Item).quantity = 2 →
      { (⟨"a", "A", ⟨5, 0⟩, "i", 2⟩ : Item) with quantity := 1 }
        ∈ decrementItem [⟨"a", "A", ⟨5, 0⟩, "i", 2⟩] (⟨"a", "A", ⟨5, 0⟩, "i", 2⟩ : Item).id) :=
  decrement_removes_or_decrements [⟨"a", "A", ⟨5, 0⟩, "i", 2⟩] ⟨"a", "A", ⟨5, 0⟩, "i", 2⟩
    (by decide) (by decide)

/-- C7: saving a cart and hydrating the stored string yields exactly the
saved cart: the parsed value is the item-by-item encoding of the original,
and reading it back as a typed cart restores every id, name, price, image
and quantity. -/
theorem save_load_roundtrip (cart : List Item) :
    hydrate (some (serializeCart cart)) = .ok (cartJson cart) ∧
    decodeCart (cartJson cart) = some cart :=
  ⟨hydrate_serializeCart cart, decodeCart_cartJson cart⟩

/-- C8: the featured listing is exactly the first 4 records with name, image
and brand all present; the general listing is exactly the first 20 records
with name and image; a record with name and image but no brand is excluded
from the former and included in the latter. -/
theorem catalog_filter_policy :
    (∀ ps, featuredSelect ps = (ps.filter (fun p =>
      truthyField p.product_name && truthyField p.image_url
        && truthyField p.brands)).take 4) ∧
    (∀ ps, allSelect ps = (ps.filter (fun p =>
      truthyField p.product_name && truthyField p.image_url)).take 20) ∧
    (∀ ps, ∀ p ∈ featuredSelect ps,
      (truthyField p.product_name && truthyField p.image_url
        && truthyField p.brands) = true) ∧
    featuredSelect [⟨some "N", some "I", none⟩] = [] ∧
    allSelect [⟨some "N", some "I", none⟩] = [⟨some "N", some "I", none⟩] := by
  refine ⟨featuredSelect_eq, allSelect_eq, ?_, by rfl, by rfl⟩
  intro ps p hp
  rw [featuredSelect_eq] at hp
  have hp2 : p ∈ ps.filter (fun p =>
      truthyField p.product_name && truthyField p.image_url && truthyField p.brands) :=
    List.take_subset _ _ hp
  exact (List.mem_filter.mp hp2).2

/-- C9: every handler-triggered mutation (add, increase, decrease, remove,
checkout-clear) immediately persists, so the stored value stays equal to the
serialization of the in-memory cart. -/
theorem mutations_persist (s : AppState) (op : UIOp) (h : StoreInv s) :
    StoreInv (uiStep s op) := by
  cases op with
  | add id n p img => rfl
  | increase id =>
    simp only [uiStep]
    split
    · rfl
    · exact h
  | decrease id =>
    simp only [uiStep]
    split
    · rfl
    · exact h
  | remove id => rfl
  | checkout =>
    simp only [uiStep]
    split
    · rfl
    · exact h

/-- C9 witness. -/
theorem mutations_persist_witness :
    StoreInv (⟨[], some (serializeCart [])⟩ : AppState) ∧
    StoreInv (uiStep ⟨[], some (serializeCart [])⟩ (UIOp.add "x" "N" ⟨10, 0⟩ "img")) :=
  ⟨rfl, mutations_persist ⟨[], some (serializeCart [])⟩ (UIOp.add "x" "N" ⟨10, 0⟩ "img") rfl⟩

/-- C10: adding an id already in the cart increments one line item's
quantity and changes nothing else: the matched item keeps its stored name,
price and image (the call's name/price/image arguments do not appear in the
result), and all other items are untouched. -/
theorem add_existing_frame (cart : List Item) (id n : String) (p : JNum) (img : String)
    (h : ∃ it ∈ cart, it.id = id) :
    ∃ pre x post, cart = pre ++ x :: post ∧ x.id = id ∧ (∀ y ∈ pre, y.id ≠ id) ∧
      addToCart cart id n p img
        = pre ++ { x with quantity := x.quantity + 1 } :: post := by
  induction cart with
  | nil =>
    obtain ⟨it, hit, _⟩ := h
    cases hit
  | cons y rest ih =>
    by_cases hy : y.id = id
    · refine ⟨[], y, rest, rfl, hy, by simp, ?_⟩
      simp [addToCart, hy]
    · have h2 : ∃ it ∈ rest, it.id = id := by
        obtain ⟨it, hit, hid⟩ := h
        rcases List.mem_cons.mp hit with rfl | hmem
        · exact absurd hid hy
        · exact ⟨it, hmem, hid⟩
      obtain ⟨pre, x, post, hsplit, hxid, hpre, hadd⟩ := ih h2
      refine ⟨y :: pre, x, post, by simp [hsplit], hxid, ?_, ?_⟩
      · intro z hz
        rcases List.mem_cons.mp hz with rfl | hz
        · exact hy
        · exact hpre z hz
      · simp only [addToCart, if_neg hy, hadd, List.cons_append]

/-- C10 witness. -/
theorem add_existing_frame_witness :
    (∃ it ∈ [(⟨"x", "N", ⟨10, 0⟩, "i", 3⟩ : Item)], it.id = "x") ∧
    (∃ pre x post, [(⟨"x", "N", ⟨10, 0⟩, "i", 3⟩ : Item)] = pre ++ x :: post ∧ x.id = "x" ∧
      (∀ y ∈ pre, y.id ≠ "x") ∧
      addToCart [⟨"x", "N", ⟨10, 0⟩, "i", 3⟩] "x" "OTHER" ⟨999, 2⟩ "other"
        = pre ++ { x with quantity := x.quantity + 1 } :: post) :=
  ⟨⟨⟨"x", "N", ⟨10, 0⟩, "i", 3⟩, by decide, rfl⟩,
    add_existing_frame [⟨"x", "N", ⟨10, 0⟩, "i", 3⟩] "x" "OTHER" ⟨999, 2⟩ "other"
      ⟨⟨"x", "N", ⟨10, 0⟩, "i", 3⟩, by decide, rfl⟩⟩

end Store
